import Mathlib

/-!
Shallow embedding of `src/averaging.rs` from the MWATelescope `mwa_rust_core`
repository ("Spectral and Temporal averaging"), together with proofs about the
claims on its specification.

Modelling conventions:
* `f32` / `f64` sample values, weights and accumulators are modelled as exact
  rationals (`ℚ`).  The `f32 → f64` widening and the final `f64 → f32`
  narrowing casts of the source are identities in this model; floating-point
  rounding is abstracted away.  A floating-point `0.0 / 0.0` (NaN) shows up in
  this model as a division whose divisor is `0`.
* `Complex<f32>` / the entries of a `Jones` matrix are pairs of rationals
  (`CQ`).
* `ndarray` `Array3` / `Array4` are modelled as a dimension tuple together
  with a total data function on natural-number indices; only indices below the
  dimensions are meaningful.
* The two averaging macros become functions on explicit lists of samples (the
  flattened time-major iteration order of the source's nested loops), defined
  by a left fold that mirrors the source's mutable accumulators.
-/

/-- A complex number with rational components, modelling `Complex<f32>` /
`Complex<f64>` of the source. -/
structure CQ where
  re : ℚ
  im : ℚ
deriving DecidableEq

instance : Zero CQ := ⟨⟨0, 0⟩⟩

/-- Componentwise complex addition (`+=` on `Complex` in the source; the
imaginary cross terms never arise because the source only ever adds and
scales by reals). -/
def CQ.add (a b : CQ) : CQ := ⟨a.re + b.re, a.im + b.im⟩

instance : Add CQ := ⟨CQ.add⟩

/-- `jones_elem * weight_f64`: scaling a complex visibility by a real weight. -/
def CQ.scale (c : CQ) (w : ℚ) : CQ := ⟨c.re * w, c.im * w⟩

/-- Sum of a list of complex values (the accumulator loops of the source). -/
def sumCQ : List CQ → CQ
  | [] => 0
  | a :: t => a + sumCQ t

/-- A Jones matrix: four complex polarization entries, modelling
`Jones<f32>` / `Jones<f64>`. -/
abbrev Jones := Fin 4 → CQ

/-- One (time, frequency) cell of a chunk as consumed by
`average_chunk_for_pols_f64`: a Jones visibility plus per-polarization
weights and flags. -/
structure SampleA where
  jones : Jones
  weight : Fin 4 → ℚ
  flag : Fin 4 → Bool

/-- The inclusion test of `average_chunk_for_pols_f64`:
`!flag_elem && *weight_elem >= 0.`. -/
def inclA (x : SampleA) (p : Fin 4) : Bool :=
  !x.flag p && decide (0 ≤ x.weight p)

/-- Whether any polarization of the sample passes the inclusion test (this is
what flips the cube-wide `all_flagged` accumulator to `false`). -/
def anyIncl (x : SampleA) : Bool :=
  decide (∃ p : Fin 4, inclA x p = true)

/-- The mutable accumulator state of `average_chunk_for_pols_f64`. -/
structure ChunkState where
  weight_sum : Fin 4 → ℚ
  jones_sum : Fin 4 → CQ
  jones_weighted_sum : Fin 4 → CQ
  all_flagged : Bool

/-- Initial accumulator state (`[0_f64; 4]`, `Jones::default()`, `true`). -/
def initState : ChunkState :=
  ⟨fun _ => 0, fun _ => 0, fun _ => 0, true⟩

/-- One iteration of the sample loops of `average_chunk_for_pols_f64`: the
unweighted Jones sum always accumulates; for each polarization passing the
inclusion test the weighted sum and weight total accumulate and `all_flagged`
is cleared. -/
def stepSample (s : ChunkState) (x : SampleA) : ChunkState where
  weight_sum := fun p =>
    if inclA x p then s.weight_sum p + x.weight p else s.weight_sum p
  jones_sum := fun p => s.jones_sum p + x.jones p
  jones_weighted_sum := fun p =>
    if inclA x p then s.jones_weighted_sum p + (x.jones p).scale (x.weight p)
    else s.jones_weighted_sum p
  all_flagged := s.all_flagged && !anyIncl x

/-- Run the accumulation loops over a whole chunk. -/
def runChunk (samples : List SampleA) : ChunkState :=
  samples.foldl stepSample initState

/-- Result of reducing one chunk: per-polarization visibility, weight and
flag (`avg_jones`, `avg_weight_view`, `avg_flag_view`). -/
structure ChunkOut where
  avg_jones : Fin 4 → CQ
  avg_weight : Fin 4 → ℚ
  avg_flag : Fin 4 → Bool

/-- The `average_chunk_for_pols_f64!` macro ("Variant A"): weighted mean of
the unflagged, non-negative-weight samples per polarization; if no sample in
the whole chunk was included, the unweighted mean over `chunk_size`; the
weight output is the weight total in either branch and all four flags are the
single `all_flagged` boolean. -/
def average_chunk_for_pols_f64 (samples : List SampleA) : ChunkOut :=
  let st := runChunk samples
  let n : ℚ := (samples.length : ℚ)
  { avg_jones := fun p =>
      if st.all_flagged then
        ⟨(st.jones_sum p).re / n, (st.jones_sum p).im / n⟩
      else
        ⟨(st.jones_weighted_sum p).re / st.weight_sum p,
         (st.jones_weighted_sum p).im / st.weight_sum p⟩
    avg_weight := fun p => st.weight_sum p
    avg_flag := fun _ => st.all_flagged }

/-- One (time, frequency) cell of a chunk as consumed by
`average_chunk_f64` ("Variant B"): a Jones visibility plus one scalar
weight; there is no flag input. -/
structure SampleB where
  jones : Jones
  weight : ℚ

/-- The inclusion test of `average_chunk_f64`:
`*weight >= 0. && weight.abs() > 0.`. -/
def inclB (x : SampleB) : Bool :=
  decide (0 ≤ x.weight) && decide (0 < |x.weight|)

/-- The mutable accumulator state of `average_chunk_f64`. -/
structure ChunkStateB where
  weight_sum_f64 : ℚ
  jones_sum : Fin 4 → CQ
  jones_weighted_sum : Fin 4 → CQ
  avg_flag : Bool

/-- Initial accumulator state of `average_chunk_f64`. -/
def initStateB : ChunkStateB :=
  ⟨0, fun _ => 0, fun _ => 0, true⟩

/-- One iteration of the sample loop of `average_chunk_f64`: included samples
add the magnitude of the weight to the scalar weight total and the
magnitude-weighted visibility to the weighted sum, clearing `avg_flag`. -/
def stepSampleB (s : ChunkStateB) (x : SampleB) : ChunkStateB where
  weight_sum_f64 :=
    if inclB x then s.weight_sum_f64 + |x.weight| else s.weight_sum_f64
  jones_sum := fun p => s.jones_sum p + x.jones p
  jones_weighted_sum := fun p =>
    if inclB x then s.jones_weighted_sum p + (x.jones p).scale |x.weight|
    else s.jones_weighted_sum p
  avg_flag := s.avg_flag && !inclB x

/-- Result of `average_chunk_f64`: a Jones visibility plus one scalar weight
and one scalar flag. -/
structure ChunkOutB where
  avg_jones : Fin 4 → CQ
  avg_weight : ℚ
  avg_flag : Bool

/-- The `average_chunk_f64!` macro ("Variant B"). -/
def average_chunk_f64 (samples : List SampleB) : ChunkOutB :=
  let st := samples.foldl stepSampleB initStateB
  let n : ℚ := (samples.length : ℚ)
  { avg_jones := fun p =>
      if st.avg_flag then
        ⟨(st.jones_sum p).re / n, (st.jones_sum p).im / n⟩
      else
        ⟨(st.jones_weighted_sum p).re / st.weight_sum_f64,
         (st.jones_weighted_sum p).im / st.weight_sum_f64⟩
    avg_weight := st.weight_sum_f64
    avg_flag := st.avg_flag }

/-- Specification-side sum: total of the weights of the unflagged,
non-negative-weight samples of the chunk at polarization `p`. -/
def Wsum (samples : List SampleA) (p : Fin 4) : ℚ :=
  (samples.map fun x =>
    if x.flag p = false ∧ 0 ≤ x.weight p then x.weight p else 0).sum

/-- Specification-side sum: total of `value * weight` over the unflagged,
non-negative-weight samples of the chunk at polarization `p`. -/
def WVsum (samples : List SampleA) (p : Fin 4) : CQ :=
  sumCQ (samples.map fun x =>
    if x.flag p = false ∧ 0 ≤ x.weight p then (x.jones p).scale (x.weight p)
    else 0)

/-- Specification-side sum: unweighted total of all samples of the chunk at
polarization `p`, regardless of flags. -/
def Jsum (samples : List SampleA) (p : Fin 4) : CQ :=
  sumCQ (samples.map fun x => x.jones p)

/-- Specification-side sum for Variant B: total of the magnitudes of the
weights of the samples passing the Variant B inclusion test. -/
def WsumB (samples : List SampleB) : ℚ :=
  (samples.map fun x =>
    if 0 ≤ x.weight ∧ 0 < |x.weight| then |x.weight| else 0).sum

/-- Specification-side sum for Variant B: unweighted total of all samples of
the chunk at polarization `p`. -/
def JsumB (samples : List SampleB) (p : Fin 4) : CQ :=
  sumCQ (samples.map fun x => x.jones p)

/-- A three-dimensional array (`ndarray::Array3`): a dimension triple plus a
total data function; only indices below the dimensions are meaningful. -/
structure Array3 (α : Type) where
  d0 : ℕ
  d1 : ℕ
  d2 : ℕ
  data : ℕ → ℕ → ℕ → α

/-- A four-dimensional array (`ndarray::Array4`). -/
structure Array4 (α : Type) where
  d0 : ℕ
  d1 : ℕ
  d2 : ℕ
  d3 : ℕ
  data : ℕ → ℕ → ℕ → ℕ → α

/-- Dimension tuple of an `Array4`, as compared against `(T, F, B, 4)` by the
shape checks of `average_visibilities`. -/
def Array4.dims {α : Type} (a : Array4 α) : ℕ × ℕ × ℕ × ℕ :=
  (a.d0, a.d1, a.d2, a.d3)

/-- `AveragingError::BadArrayShape { argument, function, expected, received }`.
The source stores `expected` and `received` as formatted strings
(`"({T}, {F}, {B}, 4)"` and the `Debug` rendering of the dimension tuple);
this model keeps them as dimension tuples, which carry the same
information. -/
inductive AveragingError where
  | BadArrayShape (argument : String) (function : String)
      (expected : ℕ × ℕ × ℕ × ℕ) (received : ℕ × ℕ × ℕ × ℕ)
deriving DecidableEq

/-- `pub type VisData344 = (Array3<Jones<f32>>, Array4<f32>, Array4<bool>)`. -/
abbrev VisData344 := Array3 Jones × Array4 ℚ × Array4 Bool

/-- Ceiling division on naturals.  The source computes
`(a as f64 / b as f64).ceil() as usize`; for `0 < b` (and dimensions in the
exactly-representable `f64` range) that equals `(a + b - 1) / b`. -/
def ceil_div (a b : ℕ) : ℕ := (a + b - 1) / b

/-- The list of samples of the `(ti, fi, b)` block, in the time-major order of
the source's nested `axis_chunks_iter` / `axis_iter` loops.  The time rows of
the block are `ti * avg_time + dt` for `dt < min avg_time (T - ti * avg_time)`
(the `min` is the ragged trailing chunk of `axis_chunks_iter`), and likewise
for frequency. -/
def blockSamples (jones_array : Array3 Jones) (weight_array : Array4 ℚ)
    (flag_array : Array4 Bool) (avg_time avg_freq ti fi b : ℕ) : List SampleA :=
  (List.range (min avg_time (jones_array.d0 - ti * avg_time))).flatMap fun dt =>
    (List.range (min avg_freq (jones_array.d1 - fi * avg_freq))).map fun df =>
      { jones := jones_array.data (ti * avg_time + dt) (fi * avg_freq + df) b
        weight := fun p =>
          weight_array.data (ti * avg_time + dt) (fi * avg_freq + df) b p
        flag := fun p =>
          flag_array.data (ti * avg_time + dt) (fi * avg_freq + df) b p }

/-- The averaged visibility cube produced on the success path of
`average_visibilities`: element `(ti, fi, b)` is the chunk average of the
`(ti, fi, b)` block. -/
def avgJonesOut (jones_array : Array3 Jones) (weight_array : Array4 ℚ)
    (flag_array : Array4 Bool) (avg_time avg_freq : ℕ) : Array3 Jones :=
  ⟨ceil_div jones_array.d0 avg_time, ceil_div jones_array.d1 avg_freq,
   jones_array.d2,
   fun ti fi b =>
     (average_chunk_for_pols_f64
       (blockSamples jones_array weight_array flag_array avg_time avg_freq
         ti fi b)).avg_jones⟩

/-- The averaged weight cube produced on the success path of
`average_visibilities`. -/
def avgWeightOut (jones_array : Array3 Jones) (weight_array : Array4 ℚ)
    (flag_array : Array4 Bool) (avg_time avg_freq : ℕ) : Array4 ℚ :=
  ⟨ceil_div jones_array.d0 avg_time, ceil_div jones_array.d1 avg_freq,
   jones_array.d2, 4,
   fun ti fi b p =>
     (average_chunk_for_pols_f64
       (blockSamples jones_array weight_array flag_array avg_time avg_freq
         ti fi b)).avg_weight ⟨p % 4, Nat.mod_lt p (by norm_num)⟩⟩

/-- The averaged flag cube produced on the success path of
`average_visibilities`. -/
def avgFlagOut (jones_array : Array3 Jones) (weight_array : Array4 ℚ)
    (flag_array : Array4 Bool) (avg_time avg_freq : ℕ) : Array4 Bool :=
  ⟨ceil_div jones_array.d0 avg_time, ceil_div jones_array.d1 avg_freq,
   jones_array.d2, 4,
   fun ti fi b p =>
     (average_chunk_for_pols_f64
       (blockSamples jones_array weight_array flag_array avg_time avg_freq
         ti fi b)).avg_flag ⟨p % 4, Nat.mod_lt p (by norm_num)⟩⟩

/-- `average_visibilities`: validate that the weight and flag cubes have shape
`(T, F, B, 4)` where `(T, F, B)` is the shape of the visibility cube, then
reduce every `(time block, frequency block, baseline)` triple with
`average_chunk_for_pols_f64` into output cubes of shape
`(ceil(T / avg_time), ceil(F / avg_freq), B)` (trailing `4` for weight and
flag). -/
def average_visibilities (jones_array : Array3 Jones) (weight_array : Array4 ℚ)
    (flag_array : Array4 Bool) (avg_time avg_freq : ℕ) :
    Except AveragingError VisData344 :=
  if weight_array.dims ≠ (jones_array.d0, jones_array.d1, jones_array.d2, 4) then
    .error (.BadArrayShape "weight_array" "average_visibilities"
      (jones_array.d0, jones_array.d1, jones_array.d2, 4) weight_array.dims)
  else if flag_array.dims ≠ (jones_array.d0, jones_array.d1, jones_array.d2, 4) then
    .error (.BadArrayShape "flag_array" "average_visibilities"
      (jones_array.d0, jones_array.d1, jones_array.d2, 4) flag_array.dims)
  else
    .ok (avgJonesOut jones_array weight_array flag_array avg_time avg_freq,
         avgWeightOut jones_array weight_array flag_array avg_time avg_freq,
         avgFlagOut jones_array weight_array flag_array avg_time avg_freq)

/-- Extract the success value of an `average_visibilities` call (a dummy
all-zero triple on error; only used in statements that also assert success). -/
def getOk (r : Except AveragingError VisData344) : VisData344 :=
  match r with
  | .ok v => v
  | .error _ =>
      (⟨0, 0, 0, fun _ _ _ => fun _ => 0⟩, ⟨0, 0, 0, 0, fun _ _ _ _ => 0⟩,
       ⟨0, 0, 0, 0, fun _ _ _ _ => false⟩)

/-- Equality of three-dimensional arrays as the source's `assert_abs_diff_eq`
sees them: same dimensions and same data at every in-range index. -/
def Array3.EqOn {α : Type} (a b : Array3 α) : Prop :=
  a.d0 = b.d0 ∧ a.d1 = b.d1 ∧ a.d2 = b.d2 ∧
    ∀ i j k, i < a.d0 → j < a.d1 → k < a.d2 → a.data i j k = b.data i j k

/-- Equality of four-dimensional arrays on all in-range indices. -/
def Array4.EqOn {α : Type} (a b : Array4 α) : Prop :=
  a.d0 = b.d0 ∧ a.d1 = b.d1 ∧ a.d2 = b.d2 ∧ a.d3 = b.d3 ∧
    ∀ i j k l, i < a.d0 → j < a.d1 → k < a.d2 → l < a.d3 →
      a.data i j k l = b.data i j k l

/-- Concrete chunk cell: unflagged, weight `2`, visibility `1 + 2i`. -/
def sampleIncl : SampleA := ⟨fun _ => ⟨1, 2⟩, fun _ => 2, fun _ => false⟩

/-- Concrete chunk cell: unflagged but with weight exactly `0`. -/
def sampleZeroW : SampleA := ⟨fun _ => ⟨1, 0⟩, fun _ => 0, fun _ => false⟩

/-- Concrete chunk cell: flagged on every polarization. -/
def sampleFlagged : SampleA := ⟨fun _ => ⟨3, 1⟩, fun _ => 1, fun _ => true⟩

/-- Concrete chunk cell: unflagged but with the negative sentinel weight. -/
def sampleNegW : SampleA := ⟨fun _ => ⟨1, 0⟩, fun _ => -1, fun _ => false⟩

/-- Concrete Variant B cell with positive weight. -/
def sampleBpos : SampleB := ⟨fun _ => ⟨3, 1⟩, 2⟩

/-- Concrete Variant B cell with weight exactly `0`. -/
def sampleBzero : SampleB := ⟨fun _ => ⟨3, 1⟩, 0⟩

/-- Concrete `1 × 1 × 1` visibility cube, all entries `1 + 2i`. -/
def jones111 : Array3 Jones := ⟨1, 1, 1, fun _ _ _ => fun _ => ⟨1, 2⟩⟩

/-- Concrete `1 × 1 × 1 × 4` weight cube, all entries `-1`. -/
def weightNeg111 : Array4 ℚ := ⟨1, 1, 1, 4, fun _ _ _ _ => -1⟩

/-- Concrete `1 × 1 × 1 × 4` weight cube, all entries `2`. -/
def weightPos111 : Array4 ℚ := ⟨1, 1, 1, 4, fun _ _ _ _ => 2⟩

/-- Concrete `1 × 1 × 1 × 4` weight cube, all entries `0`. -/
def weightZero111 : Array4 ℚ := ⟨1, 1, 1, 4, fun _ _ _ _ => 0⟩

/-- Concrete `1 × 1 × 1 × 4` flag cube, no flags set. -/
def flagNone111 : Array4 Bool := ⟨1, 1, 1, 4, fun _ _ _ _ => false⟩

/-- Concrete weight cube with the wrong trailing dimension (`3` instead of
`4`). -/
def weightBadShape : Array4 ℚ := ⟨1, 1, 1, 3, fun _ _ _ _ => 1⟩

/-- Concrete `3 × 1 × 1` visibility cube (time axis not divisible by a time
factor of `2`). -/
def jones311 : Array3 Jones := ⟨3, 1, 1, fun t _ _ => fun _ => ⟨(t : ℚ), 0⟩⟩

/-- Concrete `3 × 1 × 1 × 4` weight cube with weight `t + 1` at timestep `t`. -/
def weight311 : Array4 ℚ := ⟨3, 1, 1, 4, fun t _ _ _ => (t : ℚ) + 1⟩

/-- Concrete `3 × 1 × 1 × 4` flag cube, no flags set. -/
def flag311 : Array4 Bool := ⟨3, 1, 1, 4, fun _ _ _ _ => false⟩

/-! ### Helper lemmas: complex arithmetic and accumulator folds -/

/-- Unfolding lemma for complex addition. -/
theorem CQ.add_def (a b : CQ) : a + b = ⟨a.re + b.re, a.im + b.im⟩ := rfl

/-- Unfolding lemma for the complex zero. -/
theorem CQ.zero_def : (0 : CQ) = ⟨0, 0⟩ := rfl

/-- Complex addition is associative. -/
theorem CQ.add_assoc (a b c : CQ) : a + b + c = a + (b + c) := by
  simp only [CQ.add_def, CQ.mk.injEq]
  constructor <;> ring

/-- Zero is a left identity for complex addition. -/
theorem CQ.zero_add (a : CQ) : (0 : CQ) + a = a := by
  simp [CQ.add_def, CQ.zero_def]

/-- Zero is a right identity for complex addition. -/
theorem CQ.add_zero (a : CQ) : a + (0 : CQ) = a := by
  simp [CQ.add_def, CQ.zero_def]

/-- The Variant A inclusion test, rephrased as a proposition. -/
theorem inclA_iff (x : SampleA) (p : Fin 4) :
    inclA x p = true ↔ (x.flag p = false ∧ 0 ≤ x.weight p) := by
  simp [inclA]

/-- The Variant B inclusion test, rephrased as a proposition. -/
theorem inclB_iff (x : SampleB) :
    inclB x = true ↔ (0 ≤ x.weight ∧ 0 < |x.weight|) := by
  simp [inclB]

/-- Folding the chunk loop accumulates the weight totals. -/
theorem foldl_weight_sum (samples : List SampleA) (s : ChunkState) (p : Fin 4) :
    (samples.foldl stepSample s).weight_sum p = s.weight_sum p + Wsum samples p := by
  induction samples generalizing s with
  | nil => simp [Wsum]
  | cons x t ih =>
    have hs : (stepSample s x).weight_sum p =
        if x.flag p = false ∧ 0 ≤ x.weight p then s.weight_sum p + x.weight p
        else s.weight_sum p := by
      simp only [stepSample]
      by_cases h : x.flag p = false ∧ 0 ≤ x.weight p <;>
        simp [inclA_iff, h]
    have hw : Wsum (x :: t) p =
        (if x.flag p = false ∧ 0 ≤ x.weight p then x.weight p else 0) +
          Wsum t p := by
      simp [Wsum]
    rw [List.foldl_cons, ih, hs, hw]
    split_ifs with h <;> ring

/-- Folding the chunk loop accumulates the unweighted Jones sums. -/
theorem foldl_jones_sum (samples : List SampleA) (s : ChunkState) (p : Fin 4) :
    (samples.foldl stepSample s).jones_sum p = s.jones_sum p + Jsum samples p := by
  induction samples generalizing s with
  | nil => simp [Jsum, sumCQ, CQ.add_zero]
  | cons x t ih =>
    have hj : Jsum (x :: t) p = x.jones p + Jsum t p := by
      simp [Jsum, sumCQ]
    rw [List.foldl_cons, ih, hj, ← CQ.add_assoc]
    rfl

/-- Folding the chunk loop accumulates the weighted Jones sums. -/
theorem foldl_weighted_sum (samples : List SampleA) (s : ChunkState) (p : Fin 4) :
    (samples.foldl stepSample s).jones_weighted_sum p =
      s.jones_weighted_sum p + WVsum samples p := by
  induction samples generalizing s with
  | nil => simp [WVsum, sumCQ, CQ.add_zero]
  | cons x t ih =>
    have hs : (stepSample s x).jones_weighted_sum p =
        if x.flag p = false ∧ 0 ≤ x.weight p then
          s.jones_weighted_sum p + (x.jones p).scale (x.weight p)
        else s.jones_weighted_sum p := by
      simp only [stepSample]
      by_cases h : x.flag p = false ∧ 0 ≤ x.weight p <;>
        simp [inclA_iff, h]
    have hw : WVsum (x :: t) p =
        (if x.flag p = false ∧ 0 ≤ x.weight p then
          (x.jones p).scale (x.weight p) else 0) + WVsum t p := by
      simp [WVsum, sumCQ]
    rw [List.foldl_cons, ih, hs, hw]
    split_ifs with h
    · rw [CQ.add_assoc]
    · rw [CQ.zero_add]

/-- Folding the chunk loop computes `all_flagged` as "no sample had any
included polarization". -/
theorem foldl_all_flagged (samples : List SampleA) (s : ChunkState) :
    (samples.foldl stepSample s).all_flagged =
      (s.all_flagged && samples.all fun x => !anyIncl x) := by
  induction samples generalizing s with
  | nil => simp
  | cons x t ih =>
    rw [List.foldl_cons, ih]
    simp [stepSample, Bool.and_assoc]

/-- The weight output of Variant A is the weight total, in both branches. -/
theorem avg_weight_eq (samples : List SampleA) (p : Fin 4) :
    (average_chunk_for_pols_f64 samples).avg_weight p = Wsum samples p := by
  simp [average_chunk_for_pols_f64, runChunk, foldl_weight_sum, initState]

/-- The flag output of Variant A is the chunk-wide `all_flagged` boolean. -/
theorem avg_flag_eq (samples : List SampleA) (p : Fin 4) :
    (average_chunk_for_pols_f64 samples).avg_flag p =
      (samples.all fun x => !anyIncl x) := by
  simp [average_chunk_for_pols_f64, runChunk, foldl_all_flagged, initState]

/-- The chunk-wide `all_flagged` boolean holds exactly when no sample of the
chunk passes the inclusion test at any polarization. -/
theorem all_flagged_iff (samples : List SampleA) :
    (samples.all fun x => !anyIncl x) = true ↔
      ∀ x ∈ samples, ∀ p : Fin 4, ¬(x.flag p = false ∧ 0 ≤ x.weight p) := by
  simp [List.all_eq_true, anyIncl, inclA_iff]

/-- The visibility output on the weighted branch. -/
theorem avg_jones_eq_weighted (samples : List SampleA) (p : Fin 4)
    (h : (samples.all fun x => !anyIncl x) = false) :
    (average_chunk_for_pols_f64 samples).avg_jones p =
      ⟨(WVsum samples p).re / Wsum samples p,
       (WVsum samples p).im / Wsum samples p⟩ := by
  simp [average_chunk_for_pols_f64, runChunk, foldl_all_flagged,
    foldl_weight_sum, foldl_weighted_sum, initState, h, CQ.zero_add]

/-- The visibility output on the all-flagged fallback branch. -/
theorem avg_jones_eq_fallback (samples : List SampleA) (p : Fin 4)
    (h : (samples.all fun x => !anyIncl x) = true) :
    (average_chunk_for_pols_f64 samples).avg_jones p =
      ⟨(Jsum samples p).re / (samples.length : ℚ),
       (Jsum samples p).im / (samples.length : ℚ)⟩ := by
  simp [average_chunk_for_pols_f64, runChunk, foldl_all_flagged,
    foldl_jones_sum, initState, h, CQ.zero_add]

/-- Folding the Variant B loop accumulates the scalar weight total. -/
theorem foldl_weight_sumB (samples : List SampleB) (s : ChunkStateB) :
    (samples.foldl stepSampleB s).weight_sum_f64 =
      s.weight_sum_f64 + WsumB samples := by
  induction samples generalizing s with
  | nil => simp [WsumB]
  | cons x t ih =>
    have hs : (stepSampleB s x).weight_sum_f64 =
        if 0 ≤ x.weight ∧ 0 < |x.weight| then s.weight_sum_f64 + |x.weight|
        else s.weight_sum_f64 := by
      simp only [stepSampleB]
      by_cases h : 0 ≤ x.weight ∧ 0 < |x.weight| <;> simp [inclB_iff, h]
    have hw : WsumB (x :: t) =
        (if 0 ≤ x.weight ∧ 0 < |x.weight| then |x.weight| else 0) +
          WsumB t := by
      simp [WsumB]
    rw [List.foldl_cons, ih, hs, hw]
    split_ifs with h <;> ring

/-- Folding the Variant B loop accumulates the unweighted Jones sums. -/
theorem foldl_jones_sumB (samples : List SampleB) (s : ChunkStateB) (p : Fin 4) :
    (samples.foldl stepSampleB s).jones_sum p = s.jones_sum p + JsumB samples p := by
  induction samples generalizing s with
  | nil => simp [JsumB, sumCQ, CQ.add_zero]
  | cons x t ih =>
    have hj : JsumB (x :: t) p = x.jones p + JsumB t p := by
      simp [JsumB, sumCQ]
    rw [List.foldl_cons, ih, hj, ← CQ.add_assoc]
    rfl

/-- Folding the Variant B loop computes `avg_flag` as "no sample was
included". -/
theorem foldl_avg_flagB (samples : List SampleB) (s : ChunkStateB) :
    (samples.foldl stepSampleB s).avg_flag =
      (s.avg_flag && samples.all fun x => !inclB x) := by
  induction samples generalizing s with
  | nil => simp
  | cons x t ih =>
    rw [List.foldl_cons, ih]
    simp [stepSampleB, Bool.and_assoc]

/-- The weight output of Variant B is the magnitude total of the included
weights, in both branches. -/
theorem avg_weight_eqB (samples : List SampleB) :
    (average_chunk_f64 samples).avg_weight = WsumB samples := by
  simp [average_chunk_f64, foldl_weight_sumB, initStateB]

/-- The flag output of Variant B. -/
theorem avg_flag_eqB (samples : List SampleB) :
    (average_chunk_f64 samples).avg_flag = (samples.all fun x => !inclB x) := by
  simp [average_chunk_f64, foldl_avg_flagB, initStateB]

/-- The Variant B flag holds exactly when no sample passes the Variant B
inclusion test. -/
theorem avg_flagB_iff (samples : List SampleB) :
    (samples.all fun x => !inclB x) = true ↔
      ∀ x ∈ samples, ¬(0 ≤ x.weight ∧ 0 < |x.weight|) := by
  rw [List.all_eq_true]
  constructor
  · intro h x hx hc
    have hb := (inclB_iff x).mpr hc
    have hfx := h x hx
    rw [hb] at hfx
    simp at hfx
  · intro h x hx
    simp only [Bool.not_eq_true', Bool.eq_false_iff]
    exact fun hb => h x hx ((inclB_iff x).mp hb)

/-- The Variant B visibility output on the all-flagged fallback branch. -/
theorem avg_jones_eq_fallbackB (samples : List SampleB) (p : Fin 4)
    (h : (samples.all fun x => !inclB x) = true) :
    (average_chunk_f64 samples).avg_jones p =
      ⟨(JsumB samples p).re / (samples.length : ℚ),
       (JsumB samples p).im / (samples.length : ℚ)⟩ := by
  simp [average_chunk_f64, foldl_avg_flagB, foldl_jones_sumB, initStateB, h,
    CQ.zero_add]

/-- On matching shapes, `average_visibilities` succeeds with the three output
cubes. -/
theorem average_visibilities_ok (jones_array : Array3 Jones)
    (weight_array : Array4 ℚ) (flag_array : Array4 Bool) (avg_time avg_freq : ℕ)
    (hw : weight_array.dims = (jones_array.d0, jones_array.d1, jones_array.d2, 4))
    (hf : flag_array.dims = (jones_array.d0, jones_array.d1, jones_array.d2, 4)) :
    average_visibilities jones_array weight_array flag_array avg_time avg_freq =
      .ok (avgJonesOut jones_array weight_array flag_array avg_time avg_freq,
           avgWeightOut jones_array weight_array flag_array avg_time avg_freq,
           avgFlagOut jones_array weight_array flag_array avg_time avg_freq) := by
  simp [average_visibilities, hw, hf]

/-- Every term of the specification-side weight total is non-negative, hence
so is the total. -/
theorem Wsum_nonneg (samples : List SampleA) (p : Fin 4) :
    0 ≤ Wsum samples p := by
  induction samples with
  | nil => simp [Wsum]
  | cons x t ih =>
    have hw : Wsum (x :: t) p =
        (if x.flag p = false ∧ 0 ≤ x.weight p then x.weight p else 0) +
          Wsum t p := by
      simp [Wsum]
    rw [hw]
    have h0 : 0 ≤ (if x.flag p = false ∧ 0 ≤ x.weight p then x.weight p else 0) := by
      split_ifs with h
      · exact h.2
      · exact le_refl 0
    linarith

/-- An included sample's weight is at most the weight total of its chunk. -/
theorem Wsum_le_of_mem (samples : List SampleA) (p : Fin 4) (x : SampleA)
    (hx : x ∈ samples) (h : x.flag p = false ∧ 0 ≤ x.weight p) :
    x.weight p ≤ Wsum samples p := by
  induction samples with
  | nil => cases hx
  | cons y t ih =>
    have hw : Wsum (y :: t) p =
        (if y.flag p = false ∧ 0 ≤ y.weight p then y.weight p else 0) +
          Wsum t p := by
      simp [Wsum]
    rw [hw]
    rcases List.mem_cons.mp hx with hxy | hxt
    · subst hxy
      have := Wsum_nonneg t p
      simp [h]
      linarith
    · have h1 : 0 ≤ (if y.flag p = false ∧ 0 ≤ y.weight p then y.weight p else 0) := by
        split_ifs with hy
        · exact hy.2
        · exact le_refl 0
      have := ih hxt
      linarith

/-- The weight total of a concatenation splits. -/
theorem Wsum_append (l1 l2 : List SampleA) (p : Fin 4) :
    Wsum (l1 ++ l2) p = Wsum l1 p + Wsum l2 p := by
  simp [Wsum]

/-- The weight total over a `flatMap` is the sum of the per-row totals. -/
theorem Wsum_flatMap (L : List ℕ) (g : ℕ → List SampleA) (p : Fin 4) :
    Wsum (L.flatMap g) p = (L.map fun a => Wsum (g a) p).sum := by
  induction L with
  | nil => simp [Wsum]
  | cons a t ih => simp [List.flatMap_cons, Wsum_append, ih]

/-- Sums of a mapped `List.range` agree with `Finset.range` sums. -/
theorem list_range_map_sum (n : ℕ) (h : ℕ → ℚ) :
    ((List.range n).map h).sum = ∑ i ∈ Finset.range n, h i := by
  induction n with
  | zero => simp
  | succ m ih =>
    rw [List.range_succ, Finset.sum_range_succ, List.map_append,
      List.sum_append, ih]
    simp

/-- The weight total over samples generated from a `List.range`, as a
`Finset.range` sum. -/
theorem Wsum_map_range (n : ℕ) (g : ℕ → SampleA) (p : Fin 4) :
    Wsum ((List.range n).map g) p =
      ∑ df ∈ Finset.range n,
        (if (g df).flag p = false ∧ 0 ≤ (g df).weight p then (g df).weight p
         else 0) := by
  rw [← list_range_map_sum]
  simp only [Wsum, List.map_map]
  congr 1

/-- The weight total of one block, as a double sum over the in-range block
offsets. -/
theorem Wsum_blockSamples (jones_array : Array3 Jones)
    (weight_array : Array4 ℚ) (flag_array : Array4 Bool)
    (avg_time avg_freq ti fi b : ℕ) (p : Fin 4) :
    Wsum (blockSamples jones_array weight_array flag_array avg_time avg_freq
        ti fi b) p =
      ∑ dt ∈ Finset.range (min avg_time (jones_array.d0 - ti * avg_time)),
        ∑ df ∈ Finset.range (min avg_freq (jones_array.d1 - fi * avg_freq)),
          (if flag_array.data (ti * avg_time + dt) (fi * avg_freq + df) b p = false ∧
              0 ≤ weight_array.data (ti * avg_time + dt) (fi * avg_freq + df) b p
           then weight_array.data (ti * avg_time + dt) (fi * avg_freq + df) b p
           else 0) := by
  rw [blockSamples, Wsum_flatMap, list_range_map_sum]
  refine Finset.sum_congr rfl fun dt _ => ?_
  rw [Wsum_map_range]

/-- `ceil_div` is the genuine ceiling of the rational division, for a nonzero
divisor (the source computes the f64 ceiling). -/
theorem ceil_div_eq_ceil (a b : ℕ) (hb : 0 < b) :
    (ceil_div a b : ℤ) = ⌈(a : ℚ) / (b : ℚ)⌉ := by
  have hdm := Nat.div_add_mod (a + b - 1) b
  have hmod : (a + b - 1) % b < b := Nat.mod_lt _ hb
  have hcd : ceil_div a b = (a + b - 1) / b := rfl
  obtain ⟨m, hm⟩ : ∃ m, b * ((a + b - 1) / b) = m := ⟨_, rfl⟩
  rw [hm] at hdm
  have key1 : a ≤ m := by omega
  have key2 : m < a + b := by omega
  have hb' : (0 : ℚ) < (b : ℚ) := by exact_mod_cast hb
  have hmq : (m : ℚ) = (b : ℚ) * (((a + b - 1) / b : ℕ) : ℚ) := by
    exact_mod_cast hm.symm
  have hk1 : (a : ℚ) ≤ (m : ℚ) := by exact_mod_cast key1
  have hk2 : (m : ℚ) < (a : ℚ) + (b : ℚ) := by exact_mod_cast key2
  rw [hcd]
  symm
  rw [Int.ceil_eq_iff]
  have hcast : ((((a + b - 1) / b : ℕ) : ℤ) : ℚ) = (((a + b - 1) / b : ℕ) : ℚ) := by
    norm_cast
  constructor
  · rw [hcast, lt_div_iff₀ hb']
    nlinarith [hmq, hk2]
  · rw [hcast, div_le_iff₀ hb']
    nlinarith [hmq, hk1]

/-- If no sample of the chunk is included at polarization `p`, the weight
total at `p` is zero. -/
theorem Wsum_eq_zero (samples : List SampleA) (p : Fin 4)
    (h : ∀ x ∈ samples, ¬(x.flag p = false ∧ 0 ≤ x.weight p)) :
    Wsum samples p = 0 := by
  induction samples with
  | nil => simp [Wsum]
  | cons x t ih =>
    have hw : Wsum (x :: t) p =
        (if x.flag p = false ∧ 0 ≤ x.weight p then x.weight p else 0) +
          Wsum t p := by
      simp [Wsum]
    rw [hw, ih fun y hy => h y (List.mem_cons_of_mem x hy)]
    simp [h x (List.mem_cons_self x t)]

/-! ### Claim theorems -/

/-- Claim C1: for every chunk in which at least one sample (in some
polarization) is unflagged with weight ≥ 0, `average_chunk_for_pols_f64`
outputs, for each polarization, visibility equal to the sum of
`value * weight` over that polarization's unflagged, non-negative-weight
samples divided by the sum of those weights, and weight equal to that
weight-total accumulator.  (The double-precision accumulation and final
single-precision downcast of the source are identities in this exact-rational
model.) -/
theorem C1_weighted_mean (samples : List SampleA)
    (h : ∃ x ∈ samples, ∃ q : Fin 4, x.flag q = false ∧ 0 ≤ x.weight q)
    (p : Fin 4) :
    (average_chunk_for_pols_f64 samples).avg_jones p =
      ⟨(WVsum samples p).re / Wsum samples p,
       (WVsum samples p).im / Wsum samples p⟩ ∧
    (average_chunk_for_pols_f64 samples).avg_weight p = Wsum samples p := by
  have hall : (samples.all fun x => !anyIncl x) = false := by
    rw [Bool.eq_false_iff]
    intro ht
    obtain ⟨x, hx, q, hq⟩ := h
    exact (all_flagged_iff samples).mp ht x hx q hq
  exact ⟨avg_jones_eq_weighted samples p hall, avg_weight_eq samples p⟩

/-- Witness for C1 on the concrete one-cell chunk `[sampleIncl]`. -/
theorem C1_weighted_mean_witness :
    (average_chunk_for_pols_f64 [sampleIncl]).avg_jones 0 =
      ⟨(WVsum [sampleIncl] 0).re / Wsum [sampleIncl] 0,
       (WVsum [sampleIncl] 0).im / Wsum [sampleIncl] 0⟩ ∧
    (average_chunk_for_pols_f64 [sampleIncl]).avg_weight 0 = Wsum [sampleIncl] 0 :=
  C1_weighted_mean [sampleIncl]
    ⟨sampleIncl, by simp, 0, rfl, by norm_num [sampleIncl]⟩ 0

/-- Claim C2: for every chunk in which no sample in any polarization is both
unflagged and non-negative-weighted, `average_chunk_for_pols_f64` outputs,
for each polarization, visibility equal to the unweighted sum of all samples
divided by the chunk's sample count, weight `0`, and flag `true`. -/
theorem C2_fallback_mean (samples : List SampleA)
    (h : ∀ x ∈ samples, ∀ q : Fin 4, ¬(x.flag q = false ∧ 0 ≤ x.weight q))
    (p : Fin 4) :
    (average_chunk_for_pols_f64 samples).avg_jones p =
      ⟨(Jsum samples p).re / (samples.length : ℚ),
       (Jsum samples p).im / (samples.length : ℚ)⟩ ∧
    (average_chunk_for_pols_f64 samples).avg_weight p = 0 ∧
    (average_chunk_for_pols_f64 samples).avg_flag p = true := by
  have hall : (samples.all fun x => !anyIncl x) = true :=
    (all_flagged_iff samples).mpr h
  refine ⟨avg_jones_eq_fallback samples p hall, ?_, ?_⟩
  · rw [avg_weight_eq]
    exact Wsum_eq_zero samples p fun x hx => h x hx p
  · rw [avg_flag_eq]
    exact hall

/-- Witness for C2 on the concrete all-flagged one-cell chunk
`[sampleFlagged]`. -/
theorem C2_fallback_mean_witness :
    (average_chunk_for_pols_f64 [sampleFlagged]).avg_jones 0 =
      ⟨(Jsum [sampleFlagged] 0).re / (([sampleFlagged] : List SampleA).length : ℚ),
       (Jsum [sampleFlagged] 0).im / (([sampleFlagged] : List SampleA).length : ℚ)⟩ ∧
    (average_chunk_for_pols_f64 [sampleFlagged]).avg_weight 0 = 0 ∧
    (average_chunk_for_pols_f64 [sampleFlagged]).avg_flag 0 = true :=
  C2_fallback_mean [sampleFlagged]
    (by
      intro x hx q
      rw [List.mem_singleton] at hx
      subst hx
      simp [sampleFlagged]) 0

/-- Claim C9: the four per-polarization flags written by
`average_chunk_for_pols_f64` are all equal, and they are `true` exactly when
no sample of the chunk, at any polarization, passed the inclusion test
(unflagged and weight ≥ 0). -/
theorem C9_single_combined_flag (samples : List SampleA) (p q : Fin 4) :
    (average_chunk_for_pols_f64 samples).avg_flag p =
      (average_chunk_for_pols_f64 samples).avg_flag q ∧
    ((average_chunk_for_pols_f64 samples).avg_flag p = true ↔
      ∀ x ∈ samples, ∀ r : Fin 4, ¬(x.flag r = false ∧ 0 ≤ x.weight r)) := by
  refine ⟨by rw [avg_flag_eq, avg_flag_eq], ?_⟩
  rw [avg_flag_eq]
  exact all_flagged_iff samples

/-- Claim C8: in `average_chunk_f64` (Variant B) a sample is included exactly
when its scalar weight is ≥ 0 with magnitude strictly greater than 0; the
scalar output weight is the sum of the magnitudes of the included weights; a
chunk with no included sample yields flag `true` and the unweighted-mean
fallback; and a weight-exactly-0 sample is excluded here although Variant A
includes an unflagged zero-weight sample. -/
theorem C8_variant_b (samples : List SampleB) (p : Fin 4) :
    (average_chunk_f64 samples).avg_weight = WsumB samples ∧
    ((average_chunk_f64 samples).avg_flag = true ↔
      ∀ x ∈ samples, ¬(0 ≤ x.weight ∧ 0 < |x.weight|)) ∧
    ((average_chunk_f64 samples).avg_flag = true →
      (average_chunk_f64 samples).avg_jones p =
        ⟨(JsumB samples p).re / (samples.length : ℚ),
         (JsumB samples p).im / (samples.length : ℚ)⟩) ∧
    (∀ x : SampleB, x.weight = 0 → (average_chunk_f64 [x]).avg_flag = true) ∧
    (∀ y : SampleA, (∀ r : Fin 4, y.flag r = false ∧ y.weight r = 0) →
      (average_chunk_for_pols_f64 [y]).avg_flag p = false) := by
  refine ⟨avg_weight_eqB samples, ?_, ?_, ?_, ?_⟩
  · rw [avg_flag_eqB]
    exact avg_flagB_iff samples
  · intro h
    rw [avg_flag_eqB] at h
    exact avg_jones_eq_fallbackB samples p h
  · intro x hx
    rw [avg_flag_eqB]
    simp [inclB, hx]
  · intro y hy
    rw [avg_flag_eq]
    simp only [List.all_cons, List.all_nil, Bool.and_true, Bool.not_eq_true',
      Bool.eq_false_iff]
    intro hn
    rw [Bool.not_eq_true'] at hn
    have : anyIncl y = true := by
      rw [anyIncl, decide_eq_true_eq]
      exact ⟨0, (inclA_iff y 0).mpr ⟨(hy 0).1, le_of_eq (hy 0).2.symm⟩⟩
    rw [this] at hn
    cases hn

/-- Witness for C8: the zero-weight Variant B cell `sampleBzero` is excluded
(chunk stays flagged and falls back to the unweighted mean) while the
zero-weight unflagged Variant A cell `sampleZeroW` is included. -/
theorem C8_variant_b_witness :
    (average_chunk_f64 [sampleBzero]).avg_jones 0 =
      ⟨(JsumB [sampleBzero] 0).re / (([sampleBzero] : List SampleB).length : ℚ),
       (JsumB [sampleBzero] 0).im / (([sampleBzero] : List SampleB).length : ℚ)⟩ ∧
    (average_chunk_f64 [sampleBzero]).avg_flag = true ∧
    (average_chunk_for_pols_f64 [sampleZeroW]).avg_flag 0 = false := by
  have h := C8_variant_b [sampleBzero] 0
  have hflag : (average_chunk_f64 [sampleBzero]).avg_flag = true :=
    h.2.2.2.1 sampleBzero rfl
  exact ⟨h.2.2.1 hflag, hflag,
    (C8_variant_b [sampleBzero] 0).2.2.2.2 sampleZeroW fun r => ⟨rfl, rfl⟩⟩

/-- Claim C7 counterexample: on the one-cell chunk `[sampleZeroW]` (unflagged,
weight exactly `0`) the weighted-mean branch is taken (the output flag is
`false`), yet the divisor of that branch — the weight total, which is also
the weight output — is `0`.  In the `f64` arithmetic of the source this is
`0.0 / 0.0`, a NaN visibility, refuting the claim that the weighted-branch
divisor is nonzero whenever the branch is taken. -/
theorem C7_counterexample :
    (average_chunk_for_pols_f64 [sampleZeroW]).avg_flag 0 = false ∧
    (average_chunk_for_pols_f64 [sampleZeroW]).avg_weight 0 = 0 := by
  constructor <;>
    simp [average_chunk_for_pols_f64, runChunk, stepSample, initState, inclA,
      anyIncl, sampleZeroW]

/-- Claim C7 (amended): the divisor of the weighted-mean branch for
polarization `p` — the weight total, which is also the weight output — is
strictly positive (in particular nonzero, so no `0/0` NaN arises at `p`)
whenever some sample of the chunk is unflagged at `p` with strictly positive
weight; the unconditional claim fails when every included sample at `p` has
weight exactly `0` (see the counterexample). -/
theorem C7_divisor_amended (samples : List SampleA) (p : Fin 4)
    (h : ∃ x ∈ samples, x.flag p = false ∧ 0 < x.weight p) :
    (average_chunk_for_pols_f64 samples).avg_flag p = false ∧
    0 < Wsum samples p ∧
    (average_chunk_for_pols_f64 samples).avg_weight p = Wsum samples p := by
  obtain ⟨x, hx, hf, hw⟩ := h
  have hincl : x.flag p = false ∧ 0 ≤ x.weight p := ⟨hf, hw.le⟩
  have hflag : (samples.all fun y => !anyIncl y) = false := by
    rw [Bool.eq_false_iff]
    intro ht
    exact (all_flagged_iff samples).mp ht x hx p hincl
  refine ⟨by rw [avg_flag_eq]; exact hflag, ?_, avg_weight_eq samples p⟩
  exact lt_of_lt_of_le hw (Wsum_le_of_mem samples p x hx hincl)

/-- Witness for the amended C7 on the concrete chunk `[sampleIncl]`. -/
theorem C7_divisor_amended_witness :
    (average_chunk_for_pols_f64 [sampleIncl]).avg_flag 0 = false ∧
    0 < Wsum [sampleIncl] 0 ∧
    (average_chunk_for_pols_f64 [sampleIncl]).avg_weight 0 = Wsum [sampleIncl] 0 :=
  C7_divisor_amended [sampleIncl] 0
    ⟨sampleIncl, by simp, rfl, by norm_num [sampleIncl]⟩

/-- Claim C3: `average_visibilities` fails exactly when the weight or flag
cube dimensions differ from `(T, F, B, 4)` derived from the visibility cube;
the error names the offending argument, the function, the expected shape and
the received shape.  Because the result is an `Except`, the error case
excludes any output (the source returns before allocating the output
arrays). -/
theorem C3_shape_error (jones_array : Array3 Jones) (weight_array : Array4 ℚ)
    (flag_array : Array4 Bool) (avg_time avg_freq : ℕ) :
    (Except.isOk (average_visibilities jones_array weight_array flag_array
        avg_time avg_freq) = false ↔
      (weight_array.dims ≠ (jones_array.d0, jones_array.d1, jones_array.d2, 4) ∨
       flag_array.dims ≠ (jones_array.d0, jones_array.d1, jones_array.d2, 4))) ∧
    (weight_array.dims ≠ (jones_array.d0, jones_array.d1, jones_array.d2, 4) →
      average_visibilities jones_array weight_array flag_array avg_time avg_freq =
        .error (.BadArrayShape "weight_array" "average_visibilities"
          (jones_array.d0, jones_array.d1, jones_array.d2, 4)
          weight_array.dims)) ∧
    (weight_array.dims = (jones_array.d0, jones_array.d1, jones_array.d2, 4) →
      flag_array.dims ≠ (jones_array.d0, jones_array.d1, jones_array.d2, 4) →
      average_visibilities jones_array weight_array flag_array avg_time avg_freq =
        .error (.BadArrayShape "flag_array" "average_visibilities"
          (jones_array.d0, jones_array.d1, jones_array.d2, 4)
          flag_array.dims)) := by
  by_cases hw : weight_array.dims = (jones_array.d0, jones_array.d1, jones_array.d2, 4)
  · by_cases hf : flag_array.dims = (jones_array.d0, jones_array.d1, jones_array.d2, 4)
    · refine ⟨?_, fun hc => absurd hw hc, fun _ hc => absurd hf hc⟩
      rw [average_visibilities_ok jones_array weight_array flag_array
        avg_time avg_freq hw hf]
      simp [Except.isOk, Except.toBool, hw, hf]
    · refine ⟨?_, fun hc => absurd hw hc, fun _ _ => ?_⟩
      · simp [average_visibilities, hw, hf, Except.isOk, Except.toBool]
      · simp [average_visibilities, hw, hf]
  · refine ⟨?_, fun _ => ?_, fun hc => absurd hc hw⟩
    · simp [average_visibilities, hw, Except.isOk, Except.toBool]
    · simp [average_visibilities, hw]

/-- Witness for C3: a weight cube with trailing dimension `3` instead of `4`
is rejected with the `weight_array` shape error. -/
theorem C3_shape_error_witness :
    average_visibilities jones111 weightBadShape flagNone111 1 1 =
      .error (.BadArrayShape "weight_array" "average_visibilities"
        (1, 1, 1, 4) (1, 1, 1, 3)) :=
  (C3_shape_error jones111 weightBadShape flagNone111 1 1).2.1 (by decide)

/-- Claim C4: for positive factors and matching input shapes,
`average_visibilities` succeeds and its outputs have dimensions
`(ceil(T / avg_time), ceil(F / avg_freq), B)` for the visibility cube and the
same with trailing `4` for the weight and flag cubes; `ceil_div` is the exact
rational ceiling. -/
theorem C4_output_dims (jones_array : Array3 Jones) (weight_array : Array4 ℚ)
    (flag_array : Array4 Bool) (avg_time avg_freq : ℕ)
    (h1 : 0 < avg_time) (h2 : 0 < avg_freq)
    (hw : weight_array.dims = (jones_array.d0, jones_array.d1, jones_array.d2, 4))
    (hf : flag_array.dims = (jones_array.d0, jones_array.d1, jones_array.d2, 4)) :
    average_visibilities jones_array weight_array flag_array avg_time avg_freq =
      .ok (avgJonesOut jones_array weight_array flag_array avg_time avg_freq,
           avgWeightOut jones_array weight_array flag_array avg_time avg_freq,
           avgFlagOut jones_array weight_array flag_array avg_time avg_freq) ∧
    ((avgJonesOut jones_array weight_array flag_array avg_time avg_freq).d0,
     (avgJonesOut jones_array weight_array flag_array avg_time avg_freq).d1,
     (avgJonesOut jones_array weight_array flag_array avg_time avg_freq).d2) =
      (ceil_div jones_array.d0 avg_time, ceil_div jones_array.d1 avg_freq,
       jones_array.d2) ∧
    (avgWeightOut jones_array weight_array flag_array avg_time avg_freq).dims =
      (ceil_div jones_array.d0 avg_time, ceil_div jones_array.d1 avg_freq,
       jones_array.d2, 4) ∧
    (avgFlagOut jones_array weight_array flag_array avg_time avg_freq).dims =
      (ceil_div jones_array.d0 avg_time, ceil_div jones_array.d1 avg_freq,
       jones_array.d2, 4) ∧
    (ceil_div jones_array.d0 avg_time : ℤ) =
      ⌈(jones_array.d0 : ℚ) / (avg_time : ℚ)⌉ ∧
    (ceil_div jones_array.d1 avg_freq : ℤ) =
      ⌈(jones_array.d1 : ℚ) / (avg_freq : ℚ)⌉ :=
  ⟨average_visibilities_ok jones_array weight_array flag_array avg_time avg_freq hw hf,
   rfl, rfl, rfl,
   ceil_div_eq_ceil jones_array.d0 avg_time h1,
   ceil_div_eq_ceil jones_array.d1 avg_freq h2⟩

/-- Witness for C4 on the concrete `3 × 1 × 1` input with a non-divisor time
factor of `2`: output dimensions `(2, 1, 1)` (and trailing `4`). -/
theorem C4_output_dims_witness :
    average_visibilities jones311 weight311 flag311 2 1 =
      .ok (avgJonesOut jones311 weight311 flag311 2 1,
           avgWeightOut jones311 weight311 flag311 2 1,
           avgFlagOut jones311 weight311 flag311 2 1) ∧
    ((avgJonesOut jones311 weight311 flag311 2 1).d0,
     (avgJonesOut jones311 weight311 flag311 2 1).d1,
     (avgJonesOut jones311 weight311 flag311 2 1).d2) =
      (ceil_div 3 2, ceil_div 1 1, 1) ∧
    (avgWeightOut jones311 weight311 flag311 2 1).dims =
      (ceil_div 3 2, ceil_div 1 1, 1, 4) ∧
    (avgFlagOut jones311 weight311 flag311 2 1).dims =
      (ceil_div 3 2, ceil_div 1 1, 1, 4) ∧
    (ceil_div 3 2 : ℤ) = ⌈(3 : ℚ) / (2 : ℚ)⌉ ∧
    (ceil_div 1 1 : ℤ) = ⌈(1 : ℚ) / (1 : ℚ)⌉ :=
  C4_output_dims jones311 weight311 flag311 2 1 (by decide) (by decide) rfl rfl

/-- Arithmetic helper for ragged chunk bounds: the length of a clamped block
starting at `A` is the clamp of the nominal length. -/
theorem min_sub_helper (A T d : ℕ) : min (A + T) d - A = min T (d - A) := by
  omega

/-- Claim C6: with positive factors and matching shapes, every output cell of
the averaged weight cube — including the ragged trailing blocks when the
factors do not divide the dimensions — is the sum of exactly the in-range,
unflagged, non-negative input weights of its block, the block being clamped
to the array bounds by the `min`. -/
theorem C6_ragged_blocks (jones_array : Array3 Jones) (weight_array : Array4 ℚ)
    (flag_array : Array4 Bool) (avg_time avg_freq ti fi b q : ℕ)
    (h1 : 0 < avg_time) (h2 : 0 < avg_freq)
    (hw : weight_array.dims = (jones_array.d0, jones_array.d1, jones_array.d2, 4))
    (hf : flag_array.dims = (jones_array.d0, jones_array.d1, jones_array.d2, 4))
    (hq : q < 4) :
    average_visibilities jones_array weight_array flag_array avg_time avg_freq =
      .ok (avgJonesOut jones_array weight_array flag_array avg_time avg_freq,
           avgWeightOut jones_array weight_array flag_array avg_time avg_freq,
           avgFlagOut jones_array weight_array flag_array avg_time avg_freq) ∧
    (avgWeightOut jones_array weight_array flag_array avg_time avg_freq).data
        ti fi b q =
      ∑ t ∈ Finset.Ico (ti * avg_time)
          (min ((ti + 1) * avg_time) jones_array.d0),
        ∑ f ∈ Finset.Ico (fi * avg_freq)
            (min ((fi + 1) * avg_freq) jones_array.d1),
          (if flag_array.data t f b q = false ∧ 0 ≤ weight_array.data t f b q
           then weight_array.data t f b q else 0) := by
  refine ⟨average_visibilities_ok jones_array weight_array flag_array
    avg_time avg_freq hw hf, ?_⟩
  have hfin : (⟨q % 4, Nat.mod_lt q (by norm_num)⟩ : Fin 4) = ⟨q, hq⟩ := by
    apply Fin.ext
    simp [Nat.mod_eq_of_lt hq]
  have e1 : (avgWeightOut jones_array weight_array flag_array avg_time
      avg_freq).data ti fi b q =
      (average_chunk_for_pols_f64 (blockSamples jones_array weight_array
        flag_array avg_time avg_freq ti fi b)).avg_weight
        ⟨q % 4, Nat.mod_lt q (by norm_num)⟩ := rfl
  rw [e1, hfin, avg_weight_eq, Wsum_blockSamples]
  rw [Finset.sum_Ico_eq_sum_range,
    show (ti + 1) * avg_time = ti * avg_time + avg_time from by ring,
    min_sub_helper]
  refine Finset.sum_congr rfl fun dt _ => ?_
  rw [Finset.sum_Ico_eq_sum_range,
    show (fi + 1) * avg_freq = fi * avg_freq + avg_freq from by ring,
    min_sub_helper]

/-- Witness for C6 on the `3 × 1 × 1` cube with time factor `2`: the ragged
trailing block (`ti = 1`) covers only timestep `2`. -/
theorem C6_ragged_blocks_witness :
    average_visibilities jones311 weight311 flag311 2 1 =
      .ok (avgJonesOut jones311 weight311 flag311 2 1,
           avgWeightOut jones311 weight311 flag311 2 1,
           avgFlagOut jones311 weight311 flag311 2 1) ∧
    (avgWeightOut jones311 weight311 flag311 2 1).data 1 0 0 0 =
      ∑ t ∈ Finset.Ico (1 * 2) (min ((1 + 1) * 2) jones311.d0),
        ∑ f ∈ Finset.Ico (0 * 1) (min ((0 + 1) * 1) jones311.d1),
          (if flag311.data t f 0 0 = false ∧ 0 ≤ weight311.data t f 0 0
           then weight311.data t f 0 0 else 0) :=
  C6_ragged_blocks jones311 weight311 flag311 2 1 1 0 0 0
    (by decide) (by decide) rfl rfl (by decide)

/-- Claim C10: whenever `average_visibilities` succeeds, every element of the
returned averaged weight cube is non-negative: only non-negative weights are
ever added to the weight totals and the all-flagged fallback writes the
untouched total `0`. -/
theorem C10_weight_nonneg (jones_array : Array3 Jones) (weight_array : Array4 ℚ)
    (flag_array : Array4 Bool) (avg_time avg_freq : ℕ)
    (h : Except.isOk (average_visibilities jones_array weight_array flag_array
      avg_time avg_freq) = true) (ti fi b q : ℕ) :
    0 ≤ (getOk (average_visibilities jones_array weight_array flag_array
      avg_time avg_freq)).2.1.data ti fi b q := by
  by_cases hw : weight_array.dims = (jones_array.d0, jones_array.d1, jones_array.d2, 4)
  · by_cases hf : flag_array.dims = (jones_array.d0, jones_array.d1, jones_array.d2, 4)
    · rw [average_visibilities_ok jones_array weight_array flag_array
        avg_time avg_freq hw hf]
      show 0 ≤ (avgWeightOut jones_array weight_array flag_array avg_time
        avg_freq).data ti fi b q
      have e1 : (avgWeightOut jones_array weight_array flag_array avg_time
          avg_freq).data ti fi b q =
          (average_chunk_for_pols_f64 (blockSamples jones_array weight_array
            flag_array avg_time avg_freq ti fi b)).avg_weight
            ⟨q % 4, Nat.mod_lt q (by norm_num)⟩ := rfl
      rw [e1, avg_weight_eq]
      exact Wsum_nonneg _ _
    · rw [average_visibilities] at h
      simp [hw, hf, Except.isOk, Except.toBool] at h
  · rw [average_visibilities] at h
    simp [hw, Except.isOk, Except.toBool] at h

/-- Witness for C10 on the concrete `1 × 1 × 1` positive-weight input. -/
theorem C10_weight_nonneg_witness :
    0 ≤ (getOk (average_visibilities jones111 weightPos111 flagNone111
      1 1)).2.1.data 0 0 0 0 :=
  C10_weight_nonneg jones111 weightPos111 flagNone111 1 1 rfl 0 0 0 0

/-- With both factors `1`, each block consists of exactly the single in-range
cell. -/
theorem blockSamples_one_one (jones_array : Array3 Jones)
    (weight_array : Array4 ℚ) (flag_array : Array4 Bool) (ti fi b : ℕ)
    (ht : ti < jones_array.d0) (hfr : fi < jones_array.d1) :
    blockSamples jones_array weight_array flag_array 1 1 ti fi b =
      [{ jones := jones_array.data ti fi b
         weight := fun q => weight_array.data ti fi b q
         flag := fun q => flag_array.data ti fi b q }] := by
  rw [blockSamples]
  have h1 : min 1 (jones_array.d0 - ti * 1) = 1 := by omega
  have h2 : min 1 (jones_array.d1 - fi * 1) = 1 := by omega
  rw [h1, h2]
  simp [List.range_succ]

/-- Reducing a single unflagged, positively weighted cell returns the cell
itself: its visibility, its weight, and no flag. -/
theorem avg_chunk_singleton (s : SampleA)
    (hflag : ∀ r : Fin 4, s.flag r = false)
    (hpos : ∀ r : Fin 4, 0 < s.weight r) :
    (∀ r, (average_chunk_for_pols_f64 [s]).avg_jones r = s.jones r) ∧
    (∀ r, (average_chunk_for_pols_f64 [s]).avg_weight r = s.weight r) ∧
    (∀ r, (average_chunk_for_pols_f64 [s]).avg_flag r = false) := by
  have hany : anyIncl s = true := by
    simp only [anyIncl, decide_eq_true_eq]
    exact ⟨0, (inclA_iff s 0).mpr ⟨hflag 0, (hpos 0).le⟩⟩
  have hall : (([s] : List SampleA).all fun x => !anyIncl x) = false := by
    simp [hany]
  have hW : ∀ r, Wsum [s] r = s.weight r := fun r => by
    simp [Wsum, hflag r, (hpos r).le]
  refine ⟨fun r => ?_, fun r => by rw [avg_weight_eq]; exact hW r,
    fun r => by rw [avg_flag_eq]; exact hall⟩
  rw [avg_jones_eq_weighted _ _ hall]
  have hWV : WVsum [s] r = (s.jones r).scale (s.weight r) := by
    simp [WVsum, sumCQ, hflag r, (hpos r).le, CQ.add_zero]
  have hne : s.weight r ≠ 0 := ne_of_gt (hpos r)
  rw [hWV, hW r, CQ.scale]
  simp only [mul_div_cancel_right₀ _ hne]

/-- Claim C5 counterexample: the `1 × 1 × 1` input `jones111` with flag cube
entirely `false` (`flagNone111`) but weight `-1` everywhere (`weightNeg111`),
averaged with both factors `1`, does NOT reproduce its inputs: the negative
sentinel weight is excluded by the inclusion test, so the block counts as
all-flagged — the output flag is `true` (the claim demands `false`) and the
output weight is `0` (the input weight is `-1`). -/
theorem C5_counterexample :
    Except.isOk (average_visibilities jones111 weightNeg111 flagNone111 1 1) =
      true ∧
    flagNone111.data 0 0 0 0 = false ∧
    weightNeg111.data 0 0 0 0 = -1 ∧
    (getOk (average_visibilities jones111 weightNeg111 flagNone111
      1 1)).2.2.data 0 0 0 0 = true ∧
    (getOk (average_visibilities jones111 weightNeg111 flagNone111
      1 1)).2.1.data 0 0 0 0 = 0 := by
  refine ⟨rfl, rfl, rfl, ?_, ?_⟩ <;>
    simp [average_visibilities, Array4.dims, getOk, avgFlagOut, avgWeightOut,
      blockSamples, average_chunk_for_pols_f64, runChunk, stepSample,
      initState, inclA, anyIncl, jones111, weightNeg111, flagNone111,
      List.range_succ]

/-- Claim C5 (amended): for every input whose flag cube is entirely `false`
and whose weights are all strictly positive, averaging with both factors `1`
returns the visibility and weight cubes numerically unchanged and an
entirely-`false` flag cube.  The positivity requirement is forced: a negative
weight is excluded by the inclusion test (see the counterexample), and a
weight exactly `0` leaves a zero weighted-branch divisor, so neither
reproduces the input. -/
theorem C5_identity_amended (jones_array : Array3 Jones)
    (weight_array : Array4 ℚ) (flag_array : Array4 Bool)
    (hw : weight_array.dims = (jones_array.d0, jones_array.d1, jones_array.d2, 4))
    (hf : flag_array.dims = (jones_array.d0, jones_array.d1, jones_array.d2, 4))
    (hflag : ∀ t f b q, t < jones_array.d0 → f < jones_array.d1 →
      b < jones_array.d2 → q < 4 → flag_array.data t f b q = false)
    (hpos : ∀ t f b q, t < jones_array.d0 → f < jones_array.d1 →
      b < jones_array.d2 → q < 4 → 0 < weight_array.data t f b q) :
    average_visibilities jones_array weight_array flag_array 1 1 =
      .ok (avgJonesOut jones_array weight_array flag_array 1 1,
           avgWeightOut jones_array weight_array flag_array 1 1,
           avgFlagOut jones_array weight_array flag_array 1 1) ∧
    (avgJonesOut jones_array weight_array flag_array 1 1).EqOn jones_array ∧
    (avgWeightOut jones_array weight_array flag_array 1 1).EqOn weight_array ∧
    (∀ ti fi b q, ti < jones_array.d0 → fi < jones_array.d1 →
      b < jones_array.d2 → q < 4 →
      (avgFlagOut jones_array weight_array flag_array 1 1).data ti fi b q =
        false) := by
  obtain ⟨hwa, hwb, hwc, hwd⟩ :
      weight_array.d0 = jones_array.d0 ∧ weight_array.d1 = jones_array.d1 ∧
        weight_array.d2 = jones_array.d2 ∧ weight_array.d3 = 4 := by
    simpa [Array4.dims, Prod.ext_iff] using hw
  have hd0 : ceil_div jones_array.d0 1 = jones_array.d0 := by
    simp [ceil_div]
  have hd1 : ceil_div jones_array.d1 1 = jones_array.d1 := by
    simp [ceil_div]
  have hsingle : ∀ ti fi b, ti < jones_array.d0 → fi < jones_array.d1 →
      b < jones_array.d2 →
      (∀ r : Fin 4, (average_chunk_for_pols_f64 (blockSamples jones_array
        weight_array flag_array 1 1 ti fi b)).avg_jones r =
          jones_array.data ti fi b r) ∧
      (∀ r : Fin 4, (average_chunk_for_pols_f64 (blockSamples jones_array
        weight_array flag_array 1 1 ti fi b)).avg_weight r =
          weight_array.data ti fi b r) ∧
      (∀ r : Fin 4, (average_chunk_for_pols_f64 (blockSamples jones_array
        weight_array flag_array 1 1 ti fi b)).avg_flag r = false) := by
    intro ti fi b ht hfr hb
    rw [blockSamples_one_one jones_array weight_array flag_array ti fi b ht hfr]
    exact avg_chunk_singleton _
      (fun r => hflag ti fi b r ht hfr hb r.isLt)
      (fun r => hpos ti fi b r ht hfr hb r.isLt)
  refine ⟨average_visibilities_ok jones_array weight_array flag_array 1 1 hw hf,
    ⟨hd0, hd1, rfl, ?_⟩,
    ⟨by rw [hwa]; exact hd0, by rw [hwb]; exact hd1, by rw [hwc]; rfl,
     by rw [hwd]; rfl, ?_⟩, ?_⟩
  · intro i j k hi hj hk
    have hi2 : i < jones_array.d0 := by rw [← hd0]; exact hi
    have hj2 : j < jones_array.d1 := by rw [← hd1]; exact hj
    funext r
    exact (hsingle i j k hi2 hj2 hk).1 r
  · intro i j k l hi hj hk hl
    have hi2 : i < jones_array.d0 := by rw [← hd0]; exact hi
    have hj2 : j < jones_array.d1 := by rw [← hd1]; exact hj
    have hl2 : l < 4 := hl.trans_le (le_of_eq (by exact rfl))
    have e1 : (avgWeightOut jones_array weight_array flag_array 1 1).data
        i j k l =
        (average_chunk_for_pols_f64 (blockSamples jones_array weight_array
          flag_array 1 1 i j k)).avg_weight
          ⟨l % 4, Nat.mod_lt l (by norm_num)⟩ := rfl
    rw [e1, show (⟨l % 4, Nat.mod_lt l (by norm_num)⟩ : Fin 4) = ⟨l, hl2⟩ from
      Fin.ext (Nat.mod_eq_of_lt hl2)]
    exact (hsingle i j k hi2 hj2 hk).2.1 ⟨l, hl2⟩
  · intro ti fi b q hti hfi hb hq
    have e1 : (avgFlagOut jones_array weight_array flag_array 1 1).data
        ti fi b q =
        (average_chunk_for_pols_f64 (blockSamples jones_array weight_array
          flag_array 1 1 ti fi b)).avg_flag
          ⟨q % 4, Nat.mod_lt q (by norm_num)⟩ := rfl
    rw [e1]
    exact (hsingle ti fi b hti hfi hb).2.2 _

/-- Witness for the amended C5 on the concrete `1 × 1 × 1` input with weight
`2` everywhere and no flags. -/
theorem C5_identity_amended_witness :
    average_visibilities jones111 weightPos111 flagNone111 1 1 =
      .ok (avgJonesOut jones111 weightPos111 flagNone111 1 1,
           avgWeightOut jones111 weightPos111 flagNone111 1 1,
           avgFlagOut jones111 weightPos111 flagNone111 1 1) ∧
    (avgJonesOut jones111 weightPos111 flagNone111 1 1).EqOn jones111 ∧
    (avgWeightOut jones111 weightPos111 flagNone111 1 1).EqOn weightPos111 ∧
    (∀ ti fi b q, ti < jones111.d0 → fi < jones111.d1 → b < jones111.d2 →
      q < 4 →
      (avgFlagOut jones111 weightPos111 flagNone111 1 1).data ti fi b q =
        false) :=
  C5_identity_amended jones111 weightPos111 flagNone111 rfl rfl
    (fun _ _ _ _ _ _ _ _ => rfl)
    (fun _ _ _ _ _ _ _ _ => by norm_num [weightPos111])
